import Mathlib

/-!
Verification development for the Stage-2 grouping pipeline
(`v3_stage_2.py`): similarity-graph construction, Louvain community
dispatch, and the hub-and-spoke subdivision algorithm.

The Python source is shallowly embedded: item IDs are `Nat` (the code
coerces every ID through `int`), edge weights and similarity scores are
exact rationals `ℚ`, Python strings are `List Char`, and Python values
that may be non-strings (`None`, `float('nan')`) are the inductive
`PyVal`.  Each definition carries a comment pointing to the source
lines it embeds.

Batteries marks the `Rat` arithmetic operations `irreducible`, which
blocks `decide`/`rfl` evaluation of concrete rational arithmetic; they
are restored to `semireducible` for this file so concrete runs of the
embedded pipeline can be checked by the kernel.
-/

attribute [local semireducible] Rat.add Rat.mul Rat.inv Rat.sub

/-- Tuning constants of the script (module-level configuration,
`v3_stage_2.py` lines 36-38).  The spec (§6) lists them as recognized
configuration options, so the partitioner is parametrized by them; the
script's own values are `default_config`. -/
structure Config where
  MAX_SUB_GROUP_SIZE : Nat
  MIN_ORPHAN_GROUP_SIZE : Nat
  MIN_HUB_SPOKE_GROUP_SIZE : Nat
deriving DecidableEq

/-- The constants hard-coded in the script:
`MAX_SUB_GROUP_SIZE = 200`, `MIN_ORPHAN_GROUP_SIZE = 100`,
`MIN_HUB_SPOKE_GROUP_SIZE = 10` (lines 36-38). -/
def default_config : Config := ⟨200, 100, 10⟩

/-- A Python value as it reaches `jaccard_similarity` or the
`value_format` comparison: a string, `None` (SQL NULL in an object
column), or `float('nan')`.  Strings are `List Char`. -/
inductive PyVal where
  | str (s : List Char)
  | pyNone
  | nan
deriving DecidableEq

/-- Whether a `PyVal` is a string: `isinstance(x, str)`. -/
def PyVal.isStr : PyVal → Bool
  | .str _ => true
  | _ => false

/-- Python's `s.split(c)` for a single-character separator: splits at
every occurrence, keeping empty pieces; on the empty string it returns
`[""]` (a singleton list holding the empty string), never `[]`. -/
def splitOnChar (c : Char) : List Char → List (List Char)
  | [] => [[]]
  | x :: xs =>
    match splitOnChar c xs with
    | [] => [[]]
    | t :: ts => if x = c then [] :: t :: ts else (x :: t) :: ts

/-- The token set `set(s.lower().split('_'))` built by
`jaccard_similarity` (lines 94-95). -/
def tokens (s : List Char) : Finset (List Char) :=
  (splitOnChar '_' (s.map Char.toLower)).toFinset

/-- `jaccard_similarity` (lines 92-98): 0 for non-string input, else
`|a ∩ b| / |a ∪ b|` over the lowercased underscore-token sets, with a
guard returning 0 when the union is empty. -/
def jaccard_similarity (v w : PyVal) : ℚ :=
  match v, w with
  | .str a, .str b =>
    let ta := tokens a
    let tb := tokens b
    if (ta ∪ tb).card ≠ 0 then ((ta ∩ tb).card : ℚ) / ((ta ∪ tb).card : ℚ)
    else 0
  | _, _ => 0

/-- Python `==` on the values that can appear in the `value_format`
column: equal strings compare equal, `None == None` is `True`,
`float('nan') == float('nan')` is `False`, and mixed kinds are
unequal. -/
def pyEq : PyVal → PyVal → Bool
  | .str a, .str b => decide (a = b)
  | .pyNone, .pyNone => true
  | _, _ => false

/-- `structural_score` (line 122): `1.0 if row.get('value_format') ==
neighbor_row.get('value_format') else 0.0`.  Note the code performs a
plain Python equality with no missing-value check. -/
def structural_score (v w : PyVal) : ℚ :=
  if pyEq v w then 1 else 0

/-- `LEXICAL_BOOST_FACTOR = 0.2` (line 58). -/
def LEXICAL_BOOST_FACTOR : ℚ := 1 / 5

/-- `STRUCTURAL_BOOST_FACTOR = 0.15` (line 59). -/
def STRUCTURAL_BOOST_FACTOR : ℚ := 3 / 20

/-- Inner product of two (already L2-normalized) embedding vectors, as
computed by the exact FAISS `IndexFlatIP`. -/
def dot (a b : List ℚ) : ℚ :=
  (List.zipWith (fun x y => x * y) a b).sum

/-- An item row as the graph builder consumes it: the integer-coerced
`ID`, the `variable_name` and `value_format` fields, and the item's
(normalized) embedding vector. -/
structure Item where
  ID : Nat
  variable_name : PyVal
  value_format : PyVal
  embedding : List ℚ
deriving DecidableEq

/-- `combined_weight` (lines 120-123):
`semantic * (1 + LEXICAL_BOOST_FACTOR*lexical + STRUCTURAL_BOOST_FACTOR*structural)`
with `semantic = max(0, ip)` for the inner product `ip` of the pair's
embeddings. -/
def combined_weight (a b : Item) : ℚ :=
  max 0 (dot a.embedding b.embedding) *
    (1 + LEXICAL_BOOST_FACTOR * jaccard_similarity a.variable_name b.variable_name
       + STRUCTURAL_BOOST_FACTOR * structural_score a.value_format b.value_format)

/-- An `nx.Graph` as the script uses it: the node list in insertion
order and the undirected weighted edge list in insertion order.  The
builder checks `G.has_edge` before every insertion, so the edge list
never holds two edges over the same unordered pair. -/
structure Graph where
  nodes : List Nat
  edges : List (Nat × Nat × ℚ)
deriving DecidableEq

/-- `G.adj[u].items()`: the neighbors of `u` with edge weights, in edge
insertion order (networkx keeps per-node adjacency in the order the
incident edges were added, which is exactly the filtered order of the
global edge list). -/
def Graph.adj (G : Graph) (u : Nat) : List (Nat × ℚ) :=
  G.edges.filterMap fun e =>
    if e.1 = u then some (e.2.1, e.2.2)
    else if e.2.1 = u then some (e.1, e.2.2) else none

/-- `G.has_edge(u, v)` (undirected). -/
def Graph.HasEdge (G : Graph) (u v : Nat) : Prop :=
  ∃ e ∈ G.edges, (e.1 = u ∧ e.2.1 = v) ∨ (e.1 = v ∧ e.2.1 = u)

instance (G : Graph) (u v : Nat) : Decidable (G.HasEdge u v) := by
  unfold Graph.HasEdge
  exact List.decidableBEx _ _

/-- `G.add_edge(u, v, weight=w)`; in the builder this is only reached
after a `has_edge` check, so a plain append is faithful. -/
def Graph.addEdge (G : Graph) (u v : Nat) (w : ℚ) : Graph :=
  ⟨G.nodes, G.edges ++ [(u, v, w)]⟩

/-- Structural invariants every graph manipulated by the script
satisfies (they hold for any `nx.Graph` without self-loops, and
`build_similarity_graph` never adds a self-loop): unique nodes, edge
endpoints drawn from the node list, no self-loops, and no two edges
over the same unordered pair. -/
def Graph.WF (G : Graph) : Prop :=
  G.nodes.Nodup ∧
  (∀ e ∈ G.edges, e.1 ∈ G.nodes ∧ e.2.1 ∈ G.nodes ∧ e.1 ≠ e.2.1) ∧
  G.edges.Pairwise (fun e f => ¬ ((e.1 = f.1 ∧ e.2.1 = f.2.1) ∨ (e.1 = f.2.1 ∧ e.2.1 = f.1)))

instance (G : Graph) : Decidable G.WF := by
  unfold Graph.WF
  infer_instance

/-- `community_subgraph.remove_nodes_from(nodes_processed)` (line 185):
drop the nodes and every incident edge, preserving order. -/
def Graph.removeNodes (G : Graph) (s : List Nat) : Graph :=
  ⟨G.nodes.filter (fun n => decide (n ∉ s)),
   G.edges.filter (fun e => decide (e.1 ∉ s ∧ e.2.1 ∉ s))⟩

/-- `G.subgraph(members).copy()` (line 150): the induced subgraph, with
node and per-node adjacency order inherited from `G`. -/
def Graph.subgraphOn (G : Graph) (s : List Nat) : Graph :=
  ⟨G.nodes.filter (fun n => decide (n ∈ s)),
   G.edges.filter (fun e => decide (e.1 ∈ s ∧ e.2.1 ∈ s))⟩

/-- One step of a stable descending insertion sort: place `x` after
every element whose key is `≥ key x`, before the first strictly
smaller one. -/
def insertDesc (key : α → ℚ) (x : α) : List α → List α
  | [] => [x]
  | y :: ys => if key x ≤ key y then y :: insertDesc key x ys else x :: y :: ys

/-- Python's `sorted(l, key=key, reverse=True)`: stable descending sort
(ties keep their original relative order). -/
def sortDescBy (key : α → ℚ) (l : List α) : List α :=
  l.foldl (fun acc x => insertDesc key x acc) []

/-- The FAISS `index.search` of one query vector against the whole
collection (lines 104-112): `IndexFlatIP` is exact, so the result is
all item IDs with their inner products, sorted by descending inner
product, truncated to `TOP_K_NEIGHBORS`.  (Ties are returned in
insertion order.) -/
def search_top_k (items : List Item) (K : Nat) (q : List ℚ) : List (Nat × ℚ) :=
  (sortDescBy (fun p => p.2) (items.map fun it => (it.ID, dot q it.embedding))).take K

/-- `df_lookup.loc[neighbor_id]` (line 118): fetch the row with the
given ID. -/
def lookupItem (items : List Item) (id : Nat) : Option Item :=
  items.find? fun it => it.ID == id

/-- `build_similarity_graph` (lines 100-126) without the plumbing: all
IDs become nodes; then for every item in order, its top-K neighbors are
queried and, skipping self-matches and already-present edges, an edge
with the composite weight of lines 120-123 is inserted. -/
def build_similarity_graph (K : Nat) (items : List Item) : Graph :=
  items.foldl
    (fun G it =>
      (search_top_k items K it.embedding).foldl
        (fun G2 p =>
          if p.1 = it.ID ∨ G2.HasEdge it.ID p.1 then G2
          else
            match lookupItem items p.1 with
            | none => G2
            | some nb => G2.addEdge it.ID p.1 (combined_weight it nb))
        G)
    ⟨items.map Item.ID, []⟩

/-- `nx.degree_centrality` (line 155): **unweighted** degree divided by
`n - 1`; for a graph with at most one node networkx returns 1 for every
node. -/
def centrality_value (G : Graph) (n : Nat) : ℚ :=
  if G.nodes.length ≤ 1 then 1
  else ((G.adj n).length : ℚ) / ((G.nodes.length : ℚ) - 1)

/-- `sorted(centrality, key=centrality.get, reverse=True)` (line 161):
the candidate hubs, i.e. the nodes of the working subgraph stably
sorted by descending `nx.degree_centrality` value. -/
def sortedHubs (G : Graph) : List Nat :=
  sortDescBy (centrality_value G) G.nodes

/-- Lines 164-166: the candidate group of a potential hub — the hub
itself followed by its neighbors sorted by descending edge weight,
truncated to `MAX_SUB_GROUP_SIZE - 1` spokes. -/
def candidate_group (cfg : Config) (G : Graph) (h : Nat) : List Nat :=
  h :: ((sortDescBy (fun p => p.2) (G.adj h)).take (cfg.MAX_SUB_GROUP_SIZE - 1)).map Prod.fst

/-- Lines 163-172: scan the candidate list and accept the first hub
whose candidate group reaches `MIN_HUB_SPOKE_GROUP_SIZE`. -/
def find_hub_aux (cfg : Config) (G : Graph) : List Nat → Option (Nat × List Nat)
  | [] => none
  | h :: hs =>
    if cfg.MIN_HUB_SPOKE_GROUP_SIZE ≤ (candidate_group cfg G h).length then
      some (h, candidate_group cfg G h)
    else find_hub_aux cfg G hs

/-- The hub search of one iteration of the while-loop (lines 158-172):
`none` models the Python `hub_node is None` outcome. -/
def find_hub (cfg : Config) (G : Graph) : Option (Nat × List Nat) :=
  find_hub_aux cfg G (sortedHubs G)

/-- The while-loop of lines 154-185, peeling hub-and-spoke groups off
the working subgraph.  `fuel` only bounds the number of iterations so
the recursion is structural (hence kernel-reducible); every accepted
group removes at least its hub from the subgraph, so
`sub.nodes.length + 1` iterations always suffice, and `peel` below
supplies exactly that.  Returns the accepted `(hub, group)` list and
the final remaining node set (`nodes_to_process`, kept as a list). -/
def peel_fuel (cfg : Config) : Nat → Graph → List Nat → List (Nat × List Nat) × List Nat
  | 0, _, ntp => ([], ntp)
  | fuel + 1, sub, ntp =>
    if cfg.MIN_ORPHAN_GROUP_SIZE ≤ ntp.length then
      if sub.nodes = [] then ([], ntp)
      else
        match find_hub cfg sub with
        | none => ([], ntp)
        | some (h, grp) =>
          let res := peel_fuel cfg fuel (sub.removeNodes grp)
            (ntp.filter fun n => decide (n ∉ grp))
          ((h, grp) :: res.1, res.2)
    else ([], ntp)

/-- The hub-and-spoke peeling loop with sufficient fuel. -/
def peel (cfg : Config) (sub : Graph) (ntp : List Nat) : List (Nat × List Nat) × List Nat :=
  peel_fuel cfg (sub.nodes.length + 1) sub ntp

/-- Successive batches of `orphans[i:i + MIN_ORPHAN_GROUP_SIZE]`
(lines 189-190), fueled like `peel_fuel`; `chunkList` supplies
sufficient fuel.  Python's `range` with step 0 raises, so the `k = 0`
case is unreachable in faithful use and returns `[]`. -/
def chunk_fuel : Nat → Nat → List α → List (List α)
  | 0, _, _ => []
  | fuel + 1, k, l =>
    if k = 0 || l.isEmpty then []
    else l.take k :: chunk_fuel fuel k (l.drop k)

/-- `[orphans[i:i+k] for i in range(0, len(orphans), k)]`. -/
def chunkList (k : Nat) (l : List α) : List (List α) :=
  chunk_fuel l.length k l

/-- The `group_type` discriminator of the output schema. -/
inductive GroupType where
  | hub_and_spoke
  | orphan
deriving DecidableEq

/-- One entry of a community's `sub_groups` array (lines 177-180 and
191-194).  `group_id` keeps the integer of `f"grp_{group_counter}"`;
`hub_cde_id` is present only for hub-and-spoke groups. -/
structure SubGroup where
  group_id : Nat
  group_type : GroupType
  hub_cde_id : Option Nat
  member_cde_ids : List Nat
deriving DecidableEq

/-- One entry of the `output_structure` array (lines 198-201);
`community_id` keeps the integer of `f"comm_{cid}"`. -/
structure Community where
  community_id : Nat
  total_cde_count : Nat
  member_cde_ids : List Nat
  sub_groups : List SubGroup
deriving DecidableEq

/-- Lines 177-181: the accepted hub groups become `hub_and_spoke`
sub-group records, numbered consecutively from `counter`. -/
def hub_subgroups (counter : Nat) : List (Nat × List Nat) → List SubGroup
  | [] => []
  | (h, grp) :: rest =>
    ⟨counter, GroupType.hub_and_spoke, some h, grp⟩ :: hub_subgroups (counter + 1) rest

/-- Lines 188-195: the orphan batches become `orphan` sub-group
records, numbered consecutively from `counter`. -/
def orphan_subgroups (counter : Nat) : List (List Nat) → List SubGroup
  | [] => []
  | b :: bs => ⟨counter, GroupType.orphan, none, b⟩ :: orphan_subgroups (counter + 1) bs

/-- The body of the per-community loop (lines 149-195): peel
hub-and-spoke groups off the induced subgraph, then batch the
remaining nodes into orphan groups of `MIN_ORPHAN_GROUP_SIZE`. -/
def process_community (cfg : Config) (G : Graph) (counter : Nat) (members : List Nat) :
    List SubGroup :=
  let pr := peel cfg (G.subgraphOn members) members
  hub_subgroups counter pr.1 ++
    orphan_subgroups (counter + pr.1.length) (chunkList cfg.MIN_ORPHAN_GROUP_SIZE pr.2)

/-- The distinct community IDs of the Louvain partition in order of
first appearance — the key order of the `parent_communities` dict
built with `setdefault` (lines 139-141). -/
def community_ids (partition : List (Nat × Nat)) : List Nat :=
  partition.foldl (fun acc p => if p.2 ∈ acc then acc else acc ++ [p.2]) []

/-- The member list of one parent community: every node assigned to
`cid`, in partition order (lines 139-141). -/
def community_members (partition : List (Nat × Nat)) (cid : Nat) : List Nat :=
  partition.filterMap fun p => if p.2 = cid then some p.1 else none

/-- `parent_communities` (lines 139-141) as an association list in dict
key order. -/
def group_by_community (partition : List (Nat × Nat)) : List (Nat × List Nat) :=
  (community_ids partition).map fun cid => (cid, community_members partition cid)

/-- The main loop over parent communities (lines 146-201), threading
`group_counter`.  Empty member lists are skipped (line 147) and a
community is emitted only if it produced sub-groups (line 197). -/
def format_communities (cfg : Config) (G : Graph) :
    Nat → List (Nat × List Nat) → List Community
  | _, [] => []
  | counter, (cid, members) :: rest =>
    if members = [] then format_communities cfg G counter rest
    else
      let sgs := process_community cfg G counter members
      if sgs = [] then format_communities cfg G (counter + sgs.length) rest
      else
        ⟨cid, members.length, members, sgs⟩ ::
          format_communities cfg G (counter + sgs.length) rest

/-- `detect_and_format_communities_hub_spoke` (lines 130-204).  The
Louvain step itself is the external library call
`community_louvain.best_partition(G, weight='weight')` (line 136); its
result enters here as `partition`, an assignment of every node of `G`
to a community ID (python-louvain returns a dict keyed by the graph's
nodes). -/
def detect_and_format_communities_hub_spoke (cfg : Config)
    (partition : List (Nat × Nat)) (G : Graph) : List Community :=
  format_communities cfg G 0 (group_by_community partition)

/-- The multiset of IDs covered by the sub-groups of the final output:
the union over all communities of the union over all sub-groups of
`member_cde_ids`. -/
def all_subgroup_members (out : List Community) : List Nat :=
  (out.map fun c => (c.sub_groups.map SubGroup.member_cde_ids).flatten).flatten

/-- The weighted degree (sum of incident edge weights) that claim C6
and spec §4.3(a) describe. -/
def weighted_degree (G : Graph) (n : Nat) : ℚ :=
  ((G.adj n).map Prod.snd).sum

/-- Modelled from the spec's words (claim C6, §4.3(b)): candidate hubs
in descending order of *weighted* degree centrality.  This is the
claim-side definition to compare against the code's `sortedHubs`. -/
def spec_weighted_hub_order (G : Graph) : List Nat :=
  sortDescBy (weighted_degree G) G.nodes

/-- Modelled from the spec's words (claim C6): the first hub in
descending weighted-degree order whose candidate group is large
enough. -/
def spec_find_hub (cfg : Config) (G : Graph) : Option (Nat × List Nat) :=
  find_hub_aux cfg G (spec_weighted_hub_order G)

/-- The state of the graph checkpoint file when `main` starts
(lines 340-342): absent, present-and-loadable, or present with content
whose deserialization fails (`pickle.load` raises). -/
inductive GraphCheckpoint where
  | absent
  | corrupt
  | valid (g : Graph)
deriving DecidableEq

/-- Lines 340-355 of `main`: if the checkpoint file exists it is
unconditionally `pickle.load`ed — there is no `try/except`, so a
deserialization failure propagates out of `main` (modelled as
`Except.error`); only if the file is absent is the graph rebuilt
(`freshly_built` stands for the `build_similarity_graph` result). -/
def load_or_build_graph (ck : GraphCheckpoint) (freshly_built : Graph) :
    Except String Graph :=
  match ck with
  | .absent => .ok freshly_built
  | .valid g => .ok g
  | .corrupt => .error "UnpicklingError"

/-- `GRAPH_CHECKPOINT_FILENAME = 'similarity_graph.gpickle'` (line 31). -/
def GRAPH_CHECKPOINT_FILENAME : String := "similarity_graph.gpickle"

/-- `EMBEDDINGS_CHECKPOINT_FILENAME = 'embeddings.npy'` (line 32). -/
def EMBEDDINGS_CHECKPOINT_FILENAME : String := "embeddings.npy"

/-- File-system operations relevant to checkpoint writing. -/
inductive FsOp where
  | openW (path : String)
  | writeData (path : String)
  | closeW (path : String)
  | rename (src dst : String)
deriving DecidableEq

/-- The writes performed by
`with open(graph_checkpoint_path, 'wb') as f: pickle.dump(similarity_graph, f)`
(line 355): the final checkpoint path itself is opened and written. -/
def save_graph_checkpoint_ops (path : String) : List FsOp :=
  [.openW path, .writeData path, .closeW path]

/-- The writes performed by `np.save(embeddings_checkpoint_path, embeddings)`
(line 351): NumPy opens the destination file and streams the array
into it directly. -/
def save_embeddings_ops (path : String) : List FsOp :=
  [.openW path, .writeData path, .closeW path]

/-- Modelled from the spec's words (claim C8, §4.4): a write is atomic
when the final path is never opened or written directly — its content
may only arrive via a rename from a temporary path. -/
def spec_atomic_write (finalPath : String) (ops : List FsOp) : Bool :=
  ops.all fun op =>
    match op with
    | .openW p => p != finalPath
    | .writeData p => p != finalPath
    | .closeW _ => true
    | .rename _ _ => true

/-- A small configuration within the faithful regime (all bounds
positive) under which the hub-selection loop actually runs on small
graphs: groups of at most 3, orphan batches of 1, hubs accepted from
size 2. -/
def cfg6 : Config := ⟨3, 1, 2⟩

/-- Concrete working subgraph on which unweighted and weighted hub
orderings disagree: node 1 has two light edges, node 2 one heavy
edge. -/
def G6 : Graph := ⟨[1, 2, 3, 4, 5], [(1, 3, 1), (1, 4, 1), (2, 5, 30)]⟩

/-- A Louvain assignment putting all of `G6` in community 0. -/
def parti6 : List (Nat × Nat) := [(1, 0), (2, 0), (3, 0), (4, 0), (5, 0)]

/-- The first community of the `cfg6`/`G6` run. -/
def comm6 : Community :=
  (detect_and_format_communities_hub_spoke cfg6 parti6 G6).headD ⟨0, 0, [], []⟩

/-- The first sub-group of `comm6` (a hub-and-spoke group). -/
def sg6 : SubGroup := comm6.sub_groups.headD ⟨0, GroupType.orphan, none, []⟩

/-- A two-node graph used for the checkpoint and determinism
examples. -/
def Gw : Graph := ⟨[1, 2], [(1, 2, 1)]⟩

/-- Two items whose fields exercise every boost term of the edge
weight. -/
def items9 : List Item :=
  [⟨1, PyVal.str ['x'], PyVal.str ['a'], [1]⟩,
   ⟨2, PyVal.str ['x'], PyVal.str ['a'], [1]⟩]

theorem insertDesc_perm (key : α → ℚ) (x : α) (l : List α) :
    (insertDesc key x l).Perm (x :: l) := by
  induction l with
  | nil => exact List.Perm.refl _
  | cons y ys ih =>
    unfold insertDesc
    split
    · exact (ih.cons y).trans (List.Perm.swap x y ys)
    · exact List.Perm.refl _

theorem foldl_insertDesc_perm (key : α → ℚ) (l acc : List α) :
    (l.foldl (fun a x => insertDesc key x a) acc).Perm (acc ++ l) := by
  induction l generalizing acc with
  | nil => simp
  | cons x xs ih =>
    have h1 := ih (insertDesc key x acc)
    have h2 : (insertDesc key x acc ++ xs).Perm ((x :: acc) ++ xs) :=
      (insertDesc_perm key x acc).append_right xs
    have h3 : (acc ++ x :: xs).Perm (x :: (acc ++ xs)) := List.perm_middle
    exact ((h1.trans h2).trans (List.Perm.refl _)).trans h3.symm

theorem sortDescBy_perm (key : α → ℚ) (l : List α) :
    (sortDescBy key l).Perm l := by
  have h := foldl_insertDesc_perm key l []
  simpa [sortDescBy] using h

theorem mem_sortDescBy (key : α → ℚ) (l : List α) (a : α) :
    a ∈ sortDescBy key l ↔ a ∈ l :=
  (sortDescBy_perm key l).mem_iff

theorem insertDesc_pairwise (key : α → ℚ) (x : α) (l : List α)
    (h : l.Pairwise (fun a b => key b ≤ key a)) :
    (insertDesc key x l).Pairwise (fun a b => key b ≤ key a) := by
  induction l with
  | nil => simp [insertDesc]
  | cons y ys ih =>
    unfold insertDesc
    rw [List.pairwise_cons] at h
    split
    · rename_i hxy
      refine List.pairwise_cons.mpr ⟨?_, ih h.2⟩
      intro z hz
      rcases List.mem_cons.mp ((insertDesc_perm key x ys).mem_iff.mp hz) with hz | hz
      · exact hz ▸ hxy
      · exact h.1 z hz
    · rename_i hxy
      push_neg at hxy
      refine List.pairwise_cons.mpr ⟨?_, List.pairwise_cons.mpr h⟩
      intro z hz
      rcases List.mem_cons.mp hz with hz | hz
      · exact hz ▸ le_of_lt hxy
      · exact le_trans (h.1 z hz) (le_of_lt hxy)

theorem sortDescBy_pairwise (key : α → ℚ) (l : List α) :
    (sortDescBy key l).Pairwise (fun a b => key b ≤ key a) := by
  have aux : ∀ (m acc : List α), acc.Pairwise (fun a b => key b ≤ key a) →
      (m.foldl (fun a x => insertDesc key x a) acc).Pairwise (fun a b => key b ≤ key a) := by
    intro m
    induction m with
    | nil => intro acc h; exact h
    | cons x xs ih =>
      intro acc h
      exact ih _ (insertDesc_pairwise key x acc h)
  exact aux l [] (List.Pairwise.nil)

theorem chunk_fuel_flatten {α : Type} (k : Nat) (hk : k ≠ 0) :
    ∀ (fuel : Nat) (l : List α), l.length ≤ fuel → (chunk_fuel fuel k l).flatten = l := by
  intro fuel
  induction fuel with
  | zero =>
    intro l hl
    have : l = [] := List.eq_nil_of_length_eq_zero (Nat.le_zero.mp hl)
    simp [this, chunk_fuel]
  | succ n ih =>
    intro l hl
    unfold chunk_fuel
    by_cases hl0 : l = []
    · simp [hl0, hk]
    · have hcond : (k == 0 || l.isEmpty) = false := by
        simp [hk, hl0]
      rw [if_neg (by simp [hk, hl0])]
      simp only [List.flatten_cons]
      rw [ih (l.drop k) ?_, List.take_append_drop]
      have h1 : 1 ≤ k := Nat.one_le_iff_ne_zero.mpr hk
      have h2 : l.length - k ≤ l.length - 1 := Nat.sub_le_sub_left h1 _
      have h3 : l.length - 1 ≤ n := by
        have : 1 ≤ l.length := List.length_pos.mpr hl0
        omega
      simpa using le_trans h2 h3

theorem chunkList_flatten {α : Type} (k : Nat) (hk : 1 ≤ k) (l : List α) :
    (chunkList k l).flatten = l :=
  chunk_fuel_flatten k (Nat.one_le_iff_ne_zero.mp hk) l.length l (le_refl _)

theorem chunk_fuel_countP_lt {α : Type} (k : Nat) (hk : k ≠ 0) :
    ∀ (fuel : Nat) (l : List α),
      (chunk_fuel fuel k l).countP (fun c => decide (c.length < k)) ≤ 1 := by
  intro fuel
  induction fuel with
  | zero => intro l; simp [chunk_fuel]
  | succ n ih =>
    intro l
    unfold chunk_fuel
    by_cases hl0 : l = []
    · simp [hl0, hk]
    · rw [if_neg (by simp [hk, hl0])]
      rw [List.countP_cons]
      by_cases hlen : l.length ≤ k
      · have hdrop : l.drop k = [] := List.drop_eq_nil_of_le hlen
        have : chunk_fuel n k (l.drop k) = [] := by
          cases n with
          | zero => rfl
          | succ m => rw [hdrop]; unfold chunk_fuel; simp
        rw [this]
        simp only [List.countP_nil]
        split <;> omega
      · push_neg at hlen
        have htake : (l.take k).length = k := by
          rw [List.length_take]
          exact Nat.min_eq_left (le_of_lt hlen)
        have : decide ((l.take k).length < k) = false := by
          simp [htake]
        rw [this]
        simpa using ih (l.drop k)

theorem chunkList_countP_lt {α : Type} (k : Nat) (hk : 1 ≤ k) (l : List α) :
    (chunkList k l).countP (fun c => decide (c.length < k)) ≤ 1 :=
  chunk_fuel_countP_lt k (Nat.one_le_iff_ne_zero.mp hk) l.length l

theorem chunk_fuel_dropLast_length {α : Type} (k : Nat) :
    ∀ (fuel : Nat) (l : List α),
      ∀ c ∈ (chunk_fuel fuel k l).dropLast, c.length = k := by
  intro fuel
  induction fuel with
  | zero => intro l c hc; simp [chunk_fuel] at hc
  | succ n ih =>
    intro l c hc
    unfold chunk_fuel at hc
    by_cases hk : k = 0
    · simp [hk] at hc
    by_cases hl0 : l = []
    · simp [hl0] at hc
    rw [if_neg (by simp [hk, hl0])] at hc
    rcases hrest : chunk_fuel n k (l.drop k) with _ | ⟨r, rs⟩
    · rw [hrest] at hc
      simp at hc
    · rw [hrest] at hc
      rw [List.dropLast_cons_of_ne_nil (by simp)] at hc
      rcases List.mem_cons.mp hc with hc | hc
      · subst hc
        have hdrop : l.drop k ≠ [] := by
          intro hd
          have : chunk_fuel n k (l.drop k) = [] := by
            cases n with
            | zero => rfl
            | succ m => rw [hd]; unfold chunk_fuel; simp
          rw [this] at hrest
          exact absurd hrest (by simp)
        have hlen : k < l.length := by
          by_contra hcon
          push_neg at hcon
          exact hdrop (List.drop_eq_nil_of_le hcon)
        rw [List.length_take]
        exact Nat.min_eq_left (le_of_lt hlen)
      · exact ih (l.drop k) c (by rw [hrest]; exact hc)

theorem chunkList_dropLast_length {α : Type} (k : Nat) (l : List α) :
    ∀ c ∈ (chunkList k l).dropLast, c.length = k :=
  chunk_fuel_dropLast_length k l.length l

theorem chunk_fuel_length_le {α : Type} (k : Nat) :
    ∀ (fuel : Nat) (l : List α), ∀ c ∈ chunk_fuel fuel k l, c.length ≤ k := by
  intro fuel
  induction fuel with
  | zero => intro l c hc; simp [chunk_fuel] at hc
  | succ n ih =>
    intro l c hc
    unfold chunk_fuel at hc
    split at hc
    · simp at hc
    · rcases List.mem_cons.mp hc with hc | hc
      · subst hc
        rw [List.length_take]
        exact Nat.min_le_left _ _
      · exact ih (l.drop k) c hc

theorem chunkList_eq_nil_iff {α : Type} (k : Nat) (hk : 1 ≤ k) (l : List α) :
    chunkList k l = [] ↔ l = [] := by
  constructor
  · intro h
    by_contra hl0
    have hflat := chunkList_flatten k hk l
    rw [h] at hflat
    exact hl0 hflat.symm
  · intro h
    subst h
    rfl

theorem mem_adj_iff (G : Graph) (u : Nat) (v : Nat) (w : ℚ) :
    (v, w) ∈ G.adj u ↔ ∃ e ∈ G.edges,
      (e.1 = u ∧ e.2.1 = v ∧ e.2.2 = w) ∨ (e.2.1 = u ∧ e.1 = v ∧ e.2.2 = w) := by
  unfold Graph.adj
  rw [List.mem_filterMap]
  constructor
  · rintro ⟨e, he, hfe⟩
    refine ⟨e, he, ?_⟩
    split_ifs at hfe with h1 h2
    · injection hfe with hp
      exact Or.inl ⟨h1, (Prod.mk.injEq .. ▸ hp : _ ∧ _)⟩
    · injection hfe with hp
      exact Or.inr ⟨h2, (Prod.mk.injEq .. ▸ hp : _ ∧ _)⟩
  · rintro ⟨e, he, ⟨h1, h2, h3⟩ | ⟨h1, h2, h3⟩⟩
    · exact ⟨e, he, by rw [if_pos h1, h2, h3]⟩
    · refine ⟨e, he, ?_⟩
      by_cases hfst : e.1 = u
      · rw [if_pos hfst]
        have : e.2.1 = v := by rw [h1, ← hfst, h2]
        rw [this, h3]
      · rw [if_neg hfst, if_pos h1, h2, h3]

theorem adj_target_mem_nodes (G : Graph)
    (hedge : ∀ e ∈ G.edges, e.1 ∈ G.nodes ∧ e.2.1 ∈ G.nodes ∧ e.1 ≠ e.2.1)
    (u v : Nat) (w : ℚ) (h : (v, w) ∈ G.adj u) : v ∈ G.nodes := by
  rcases (mem_adj_iff G u v w).mp h with ⟨e, he, ⟨_, h2, _⟩ | ⟨_, h2, _⟩⟩
  · exact h2 ▸ (hedge e he).2.1
  · exact h2 ▸ (hedge e he).1

theorem adj_target_ne (G : Graph)
    (hloop : ∀ e ∈ G.edges, e.1 ≠ e.2.1)
    (u v : Nat) (w : ℚ) (h : (v, w) ∈ G.adj u) : v ≠ u := by
  rcases (mem_adj_iff G u v w).mp h with ⟨e, he, ⟨h1, h2, _⟩ | ⟨h1, h2, _⟩⟩
  · intro hvu
    exact hloop e he (by rw [h1, ← hvu, h2])
  · intro hvu
    exact hloop e he (by rw [h2, hvu, h1])

theorem adj_targets_nodup (G : Graph)
    (hloop : ∀ e ∈ G.edges, e.1 ≠ e.2.1)
    (hpair : G.edges.Pairwise
      (fun e f => ¬ ((e.1 = f.1 ∧ e.2.1 = f.2.1) ∨ (e.1 = f.2.1 ∧ e.2.1 = f.1))))
    (u : Nat) : ((G.adj u).map Prod.fst).Nodup := by
  have main : ∀ (es : List (Nat × Nat × ℚ)),
      (∀ e ∈ es, e.1 ≠ e.2.1) →
      es.Pairwise (fun e f => ¬ ((e.1 = f.1 ∧ e.2.1 = f.2.1) ∨ (e.1 = f.2.1 ∧ e.2.1 = f.1))) →
      ((es.filterMap fun e =>
        if e.1 = u then some (e.2.1, e.2.2)
        else if e.2.1 = u then some (e.1, e.2.2) else none).map Prod.fst).Nodup := by
    intro es
    induction es with
    | nil => intro _ _; simp
    | cons e es ih =>
      intro hl hp
      rw [List.pairwise_cons] at hp
      have tail := ih (fun x hx => hl x (List.mem_cons_of_mem e hx)) hp.2
      have eclash : ∀ v w, (if e.1 = u then some (e.2.1, e.2.2)
          else if e.2.1 = u then some (e.1, e.2.2) else none) = some (v, w) →
          (e.1 = u ∧ e.2.1 = v) ∨ (e.1 = v ∧ e.2.1 = u) := by
        intro v w hv
        split_ifs at hv with h1 h2
        · injection hv with hp2
          exact Or.inl ⟨h1, (Prod.mk.injEq .. ▸ hp2 : _ ∧ _).1⟩
        · injection hv with hp2
          exact Or.inr ⟨(Prod.mk.injEq .. ▸ hp2 : _ ∧ _).1, h2⟩
      cases hfe : (if e.1 = u then some (e.2.1, e.2.2)
          else if e.2.1 = u then some (e.1, e.2.2) else none) with
      | none =>
        simp only [List.filterMap_cons, hfe]
        exact tail
      | some q =>
        obtain ⟨v, w⟩ := q
        simp only [List.filterMap_cons, hfe, List.map_cons]
        have hv := hfe
        refine List.nodup_cons.mpr ⟨?_, tail⟩
        intro hmem
        rcases List.mem_map.mp hmem with ⟨⟨v2, w2⟩, hv2, hveq⟩
        rcases List.mem_filterMap.mp hv2 with ⟨f, hf, hff⟩
        have hv2v : v = v2 := hveq.symm
        subst hv2v
        have he2 : (e.1 = u ∧ e.2.1 = v) ∨ (e.1 = v ∧ e.2.1 = u) := eclash v w hv
        have hf2 : (f.1 = u ∧ f.2.1 = v) ∨ (f.1 = v ∧ f.2.1 = u) := by
          have := eclash v w2
          split_ifs at hff with h1 h2
          · injection hff with hp2
            exact Or.inl ⟨h1, (Prod.mk.injEq .. ▸ hp2 : _ ∧ _).1⟩
          · injection hff with hp2
            exact Or.inr ⟨(Prod.mk.injEq .. ▸ hp2 : _ ∧ _).1, h2⟩
        have := hp.1 f hf
        rcases he2 with ⟨he1, he2⟩ | ⟨he1, he2⟩ <;>
          rcases hf2 with ⟨hf1, hf2⟩ | ⟨hf1, hf2⟩
        · exact this (Or.inl ⟨by rw [he1, hf1], by rw [he2, hf2]⟩)
        · exact this (Or.inr ⟨by rw [he1, hf2], by rw [he2, hf1]⟩)
        · exact this (Or.inr ⟨by rw [he1, hf2], by rw [he2, hf1]⟩)
        · exact this (Or.inl ⟨by rw [he1, hf1], by rw [he2, hf2]⟩)
  exact main G.edges hloop hpair

theorem candidate_group_cons (cfg : Config) (G : Graph) (h : Nat) :
    ∃ t, candidate_group cfg G h = h :: t :=
  ⟨_, rfl⟩

theorem candidate_group_length_le (cfg : Config) (G : Graph) (h : Nat)
    (hms : 1 ≤ cfg.MAX_SUB_GROUP_SIZE) :
    (candidate_group cfg G h).length ≤ cfg.MAX_SUB_GROUP_SIZE := by
  unfold candidate_group
  rw [List.length_cons, List.length_map]
  have := List.length_take_le (cfg.MAX_SUB_GROUP_SIZE - 1)
    (sortDescBy (fun p => p.2) (G.adj h))
  omega

theorem candidate_group_subset (cfg : Config) (G : Graph) (h : Nat)
    (hh : h ∈ G.nodes)
    (hedge : ∀ e ∈ G.edges, e.1 ∈ G.nodes ∧ e.2.1 ∈ G.nodes ∧ e.1 ≠ e.2.1) :
    ∀ x ∈ candidate_group cfg G h, x ∈ G.nodes := by
  intro x hx
  rcases List.mem_cons.mp hx with hx | hx
  · exact hx ▸ hh
  · rcases List.mem_map.mp hx with ⟨⟨v, w⟩, hv, hveq⟩
    have hmem : (v, w) ∈ G.adj h :=
      (mem_sortDescBy _ _ _).mp (List.mem_of_mem_take hv)
    exact hveq ▸ adj_target_mem_nodes G hedge h v w hmem

theorem candidate_group_nodup (cfg : Config) (G : Graph) (h : Nat)
    (hloop : ∀ e ∈ G.edges, e.1 ≠ e.2.1)
    (hpair : G.edges.Pairwise
      (fun e f => ¬ ((e.1 = f.1 ∧ e.2.1 = f.2.1) ∨ (e.1 = f.2.1 ∧ e.2.1 = f.1)))) :
    (candidate_group cfg G h).Nodup := by
  unfold candidate_group
  refine List.nodup_cons.mpr ⟨?_, ?_⟩
  · intro hmem
    rcases List.mem_map.mp hmem with ⟨⟨v, w⟩, hv, hveq⟩
    have hadj : (v, w) ∈ G.adj h :=
      (mem_sortDescBy _ _ _).mp (List.mem_of_mem_take hv)
    exact adj_target_ne G hloop h v w hadj hveq
  · have hadj_nodup : ((G.adj h).map Prod.fst).Nodup := adj_targets_nodup G hloop hpair h
    have hsorted : ((sortDescBy (fun p => p.2) (G.adj h)).map Prod.fst).Nodup :=
      (((sortDescBy_perm (fun p => p.2) (G.adj h))).map Prod.fst).nodup_iff.mpr hadj_nodup
    have hsub : List.Sublist
        (((sortDescBy (fun p => p.2) (G.adj h)).take (cfg.MAX_SUB_GROUP_SIZE - 1)).map Prod.fst)
        ((sortDescBy (fun p => p.2) (G.adj h)).map Prod.fst) :=
      List.Sublist.map Prod.fst (List.take_sublist _ _)
    exact hsub.nodup hsorted

theorem find_hub_aux_some (cfg : Config) (G : Graph) :
    ∀ (l : List Nat) (h : Nat) (grp : List Nat),
      find_hub_aux cfg G l = some (h, grp) →
      grp = candidate_group cfg G h ∧
      cfg.MIN_HUB_SPOKE_GROUP_SIZE ≤ grp.length ∧
      ∃ pre post, l = pre ++ h :: post ∧
        ∀ x ∈ pre, (candidate_group cfg G x).length < cfg.MIN_HUB_SPOKE_GROUP_SIZE := by
  intro l
  induction l with
  | nil => intro h grp hfind; exact absurd hfind (by simp [find_hub_aux])
  | cons a as ih =>
    intro h grp hfind
    unfold find_hub_aux at hfind
    split_ifs at hfind with hacc
    · injection hfind with hpair2
      have h1 : a = h := congrArg Prod.fst hpair2
      have h2 : candidate_group cfg G a = grp := congrArg Prod.snd hpair2
      subst h1
      refine ⟨h2.symm, h2 ▸ hacc, [], as, rfl, by simp⟩
    · rcases ih h grp hfind with ⟨hgrp, hlen, pre, post, hsplit, hpre⟩
      refine ⟨hgrp, hlen, a :: pre, post, by rw [hsplit]; rfl, ?_⟩
      intro x hx
      rcases List.mem_cons.mp hx with hx | hx
      · subst hx; omega
      · exact hpre x hx

theorem find_hub_aux_none (cfg : Config) (G : Graph) :
    ∀ (l : List Nat), find_hub_aux cfg G l = none →
      ∀ x ∈ l, (candidate_group cfg G x).length < cfg.MIN_HUB_SPOKE_GROUP_SIZE := by
  intro l
  induction l with
  | nil => intro _ x hx; simp at hx
  | cons a as ih =>
    intro hfind x hx
    unfold find_hub_aux at hfind
    split_ifs at hfind with hacc
    rcases List.mem_cons.mp hx with hx | hx
    · subst hx; omega
    · exact ih hfind x hx

theorem find_hub_some (cfg : Config) (G : Graph) (h : Nat) (grp : List Nat)
    (hfind : find_hub cfg G = some (h, grp)) :
    h ∈ G.nodes ∧ grp = candidate_group cfg G h ∧
      cfg.MIN_HUB_SPOKE_GROUP_SIZE ≤ grp.length := by
  rcases find_hub_aux_some cfg G (sortedHubs G) h grp hfind with
    ⟨hgrp, hlen, pre, post, hsplit, _⟩
  have hmem : h ∈ sortedHubs G := by
    rw [hsplit]
    exact List.mem_append_right pre (List.mem_cons_self h post)
  exact ⟨(mem_sortDescBy _ _ _).mp hmem, hgrp, hlen⟩

theorem removeNodes_length_lt (G : Graph) (s : List Nat) (x : Nat)
    (hx : x ∈ G.nodes) (hxs : x ∈ s) :
    (G.removeNodes s).nodes.length < G.nodes.length := by
  have hsub : List.Sublist (G.removeNodes s).nodes G.nodes := List.filter_sublist _
  by_contra hcon
  push_neg at hcon
  have heq : (G.removeNodes s).nodes = G.nodes := hsub.eq_of_length_le hcon
  have hxin : x ∈ (G.removeNodes s).nodes := heq ▸ hx
  have hdec := List.of_mem_filter hxin
  rw [decide_eq_true_eq] at hdec
  exact hdec hxs

theorem WF_removeNodes (G : Graph) (s : List Nat) (h : G.WF) : (G.removeNodes s).WF := by
  obtain ⟨hnd, hedge, hpair⟩ := h
  refine ⟨hnd.filter _, ?_, hpair.sublist (List.filter_sublist _)⟩
  intro e he
  have hmem := List.mem_of_mem_filter he
  have hcond := List.of_mem_filter he
  rw [decide_eq_true_eq] at hcond
  rcases hedge e hmem with ⟨h1, h2, h3⟩
  refine ⟨?_, ?_, h3⟩
  · exact List.mem_filter.mpr ⟨h1, by simpa using hcond.1⟩
  · exact List.mem_filter.mpr ⟨h2, by simpa using hcond.2⟩

theorem WF_subgraphOn (G : Graph) (s : List Nat) (h : G.WF) : (G.subgraphOn s).WF := by
  obtain ⟨hnd, hedge, hpair⟩ := h
  refine ⟨hnd.filter _, ?_, hpair.sublist (List.filter_sublist _)⟩
  intro e he
  have hmem := List.mem_of_mem_filter he
  have hcond := List.of_mem_filter he
  rw [decide_eq_true_eq] at hcond
  rcases hedge e hmem with ⟨h1, h2, h3⟩
  refine ⟨?_, ?_, h3⟩
  · exact List.mem_filter.mpr ⟨h1, by simpa using hcond.1⟩
  · exact List.mem_filter.mpr ⟨h2, by simpa using hcond.2⟩

theorem peel_fuel_hub_sizes (cfg : Config) (hms : 1 ≤ cfg.MAX_SUB_GROUP_SIZE) :
    ∀ (fuel : Nat) (sub : Graph) (ntp : List Nat),
      ∀ pr ∈ (peel_fuel cfg fuel sub ntp).1,
        cfg.MIN_HUB_SPOKE_GROUP_SIZE ≤ pr.2.length ∧
        pr.2.length ≤ cfg.MAX_SUB_GROUP_SIZE := by
  intro fuel
  induction fuel with
  | zero => intro sub ntp pr hpr; simp [peel_fuel] at hpr
  | succ n ih =>
    intro sub ntp pr hpr
    unfold peel_fuel at hpr
    split_ifs at hpr with hmin hsn
    · simp at hpr
    · cases hfind : find_hub cfg sub with
      | none => rw [hfind] at hpr; simp at hpr
      | some q =>
        obtain ⟨h, grp⟩ := q
        rw [hfind] at hpr
        simp only [List.mem_cons] at hpr
        rcases hpr with hpr | hpr
        · subst hpr
          rcases find_hub_some cfg sub h grp hfind with ⟨_, hgrp, hlen⟩
          exact ⟨hlen, hgrp ▸ candidate_group_length_le cfg sub h hms⟩
        · exact ih _ _ pr hpr
    · simp at hpr

theorem peel_fuel_hub_shape (cfg : Config) :
    ∀ (fuel : Nat) (sub : Graph) (ntp : List Nat), sub.WF →
      ∀ pr ∈ (peel_fuel cfg fuel sub ntp).1,
        (∃ t, pr.2 = pr.1 :: t) ∧ pr.2.Nodup := by
  intro fuel
  induction fuel with
  | zero => intro sub ntp _ pr hpr; simp [peel_fuel] at hpr
  | succ n ih =>
    intro sub ntp hwf pr hpr
    unfold peel_fuel at hpr
    split_ifs at hpr with hmin hsn
    · simp at hpr
    · cases hfind : find_hub cfg sub with
      | none => rw [hfind] at hpr; simp at hpr
      | some q =>
        obtain ⟨h, grp⟩ := q
        rw [hfind] at hpr
        simp only [List.mem_cons] at hpr
        rcases hpr with hpr | hpr
        · subst hpr
          rcases find_hub_some cfg sub h grp hfind with ⟨_, hgrp, _⟩
          constructor
          · exact hgrp ▸ candidate_group_cons cfg sub h
          · exact hgrp ▸ candidate_group_nodup cfg sub h
              (fun e he => (hwf.2.1 e he).2.2) hwf.2.2
        · exact ih _ _ (WF_removeNodes sub grp hwf) pr hpr
    · simp at hpr

theorem peel_fuel_perm (cfg : Config) :
    ∀ (fuel : Nat) (sub : Graph) (ntp : List Nat), sub.WF →
      (∀ n, n ∈ sub.nodes ↔ n ∈ ntp) → ntp.Nodup →
      (((peel_fuel cfg fuel sub ntp).1.map Prod.snd).flatten ++
        (peel_fuel cfg fuel sub ntp).2).Perm ntp := by
  intro fuel
  induction fuel with
  | zero => intro sub ntp _ _ _; simp [peel_fuel]
  | succ n ih =>
    intro sub ntp hwf hset hnd
    unfold peel_fuel
    split_ifs with hmin hsn
    · simp
    · cases hfind : find_hub cfg sub with
      | none => simp
      | some q =>
        obtain ⟨h, grp⟩ := q
        simp only [List.map_cons, List.flatten_cons, List.append_assoc]
        rcases find_hub_some cfg sub h grp hfind with ⟨hmem, hgrp, _⟩
        have hsubset : ∀ x ∈ grp, x ∈ sub.nodes :=
          hgrp ▸ candidate_group_subset cfg sub h hmem (hwf.2.1)
        have hgnodup : grp.Nodup :=
          hgrp ▸ candidate_group_nodup cfg sub h (fun e he => (hwf.2.1 e he).2.2) hwf.2.2
        have hset2 : ∀ m, m ∈ (sub.removeNodes grp).nodes ↔
            m ∈ ntp.filter fun x => decide (x ∉ grp) := by
          intro m
          unfold Graph.removeNodes
          simp only [List.mem_filter, decide_eq_true_eq]
          exact and_congr_left fun _ => hset m
        have hihp := ih (sub.removeNodes grp) (ntp.filter fun x => decide (x ∉ grp))
          (WF_removeNodes sub grp hwf) hset2 (hnd.filter _)
        have hgrp_perm : (grp ++ ntp.filter fun x => decide (x ∉ grp)).Perm ntp := by
          have hfp := List.filter_append_perm (fun x => decide (x ∈ grp)) ntp
          have hneg : (fun x => !decide (x ∈ grp)) = (fun x => decide (x ∉ grp)) := by
            funext x
            simp [decide_not]
          rw [hneg] at hfp
          have hgeq : (ntp.filter fun x => decide (x ∈ grp)).Perm grp := by
            rw [List.perm_ext_iff_of_nodup (hnd.filter _) hgnodup]
            intro a
            simp only [List.mem_filter, decide_eq_true_eq]
            constructor
            · exact fun ha => ha.2
            · intro ha
              exact ⟨(hset a).mp (hsubset a ha), ha⟩
          exact ((hgeq.append_right _).symm.trans hfp)
        exact (hihp.append_left grp).trans hgrp_perm
    · simp

theorem peel_hub_sizes (cfg : Config) (hms : 1 ≤ cfg.MAX_SUB_GROUP_SIZE)
    (sub : Graph) (ntp : List Nat) :
    ∀ pr ∈ (peel cfg sub ntp).1,
      cfg.MIN_HUB_SPOKE_GROUP_SIZE ≤ pr.2.length ∧
      pr.2.length ≤ cfg.MAX_SUB_GROUP_SIZE :=
  peel_fuel_hub_sizes cfg hms _ sub ntp

theorem peel_hub_shape (cfg : Config) (sub : Graph) (ntp : List Nat) (hwf : sub.WF) :
    ∀ pr ∈ (peel cfg sub ntp).1, (∃ t, pr.2 = pr.1 :: t) ∧ pr.2.Nodup :=
  peel_fuel_hub_shape cfg _ sub ntp hwf

theorem peel_perm (cfg : Config) (sub : Graph) (ntp : List Nat) (hwf : sub.WF)
    (hset : ∀ n, n ∈ sub.nodes ↔ n ∈ ntp) (hnd : ntp.Nodup) :
    (((peel cfg sub ntp).1.map Prod.snd).flatten ++ (peel cfg sub ntp).2).Perm ntp :=
  peel_fuel_perm cfg _ sub ntp hwf hset hnd

theorem mem_hub_subgroups : ∀ (c : Nat) (l : List (Nat × List Nat)) (sg : SubGroup),
    sg ∈ hub_subgroups c l →
    sg.group_type = GroupType.hub_and_spoke ∧
    ∃ pr ∈ l, sg.hub_cde_id = some pr.1 ∧ sg.member_cde_ids = pr.2 := by
  intro c l
  induction l generalizing c with
  | nil => intro sg hsg; simp [hub_subgroups] at hsg
  | cons pr rest ih =>
    intro sg hsg
    obtain ⟨h, grp⟩ := pr
    unfold hub_subgroups at hsg
    rcases List.mem_cons.mp hsg with hsg | hsg
    · subst hsg
      exact ⟨rfl, (h, grp), List.mem_cons_self _ _, rfl, rfl⟩
    · rcases ih (c + 1) sg hsg with ⟨ht, pr2, hpr2, hh, hm⟩
      exact ⟨ht, pr2, List.mem_cons_of_mem _ hpr2, hh, hm⟩

theorem hub_subgroups_map_members : ∀ (c : Nat) (l : List (Nat × List Nat)),
    (hub_subgroups c l).map SubGroup.member_cde_ids = l.map Prod.snd := by
  intro c l
  induction l generalizing c with
  | nil => rfl
  | cons pr rest ih =>
    obtain ⟨h, grp⟩ := pr
    unfold hub_subgroups
    rw [List.map_cons, List.map_cons, ih (c + 1)]

theorem mem_orphan_subgroups : ∀ (c : Nat) (bs : List (List Nat)) (sg : SubGroup),
    sg ∈ orphan_subgroups c bs →
    sg.group_type = GroupType.orphan ∧ sg.hub_cde_id = none ∧ sg.member_cde_ids ∈ bs := by
  intro c bs
  induction bs generalizing c with
  | nil => intro sg hsg; simp [orphan_subgroups] at hsg
  | cons b rest ih =>
    intro sg hsg
    unfold orphan_subgroups at hsg
    rcases List.mem_cons.mp hsg with hsg | hsg
    · subst hsg
      exact ⟨rfl, rfl, List.mem_cons_self _ _⟩
    · rcases ih (c + 1) sg hsg with ⟨ht, hh, hm⟩
      exact ⟨ht, hh, List.mem_cons_of_mem _ hm⟩

theorem orphan_subgroups_map_members : ∀ (c : Nat) (bs : List (List Nat)),
    (orphan_subgroups c bs).map SubGroup.member_cde_ids = bs := by
  intro c bs
  induction bs generalizing c with
  | nil => rfl
  | cons b rest ih =>
    unfold orphan_subgroups
    rw [List.map_cons, ih (c + 1)]

theorem process_community_members_perm (cfg : Config) (G : Graph) (counter : Nat)
    (members : List Nat) (hwf : G.WF) (hmo : 1 ≤ cfg.MIN_ORPHAN_GROUP_SIZE)
    (hnd : members.Nodup) (hsubset : ∀ x ∈ members, x ∈ G.nodes) :
    (((process_community cfg G counter members).map SubGroup.member_cde_ids).flatten).Perm
      members := by
  unfold process_community
  rw [List.map_append, List.flatten_append, hub_subgroups_map_members,
    orphan_subgroups_map_members, chunkList_flatten _ hmo]
  refine peel_perm cfg (G.subgraphOn members) members (WF_subgraphOn G members hwf) ?_ hnd
  intro n
  unfold Graph.subgraphOn
  simp only [List.mem_filter, decide_eq_true_eq]
  constructor
  · exact fun h => h.2
  · intro h
    exact ⟨hsubset n h, h⟩

theorem process_community_ne_nil (cfg : Config) (G : Graph) (counter : Nat)
    (members : List Nat) (hwf : G.WF) (hmo : 1 ≤ cfg.MIN_ORPHAN_GROUP_SIZE)
    (hnd : members.Nodup) (hsubset : ∀ x ∈ members, x ∈ G.nodes)
    (hne : members ≠ []) :
    process_community cfg G counter members ≠ [] := by
  intro hnil
  have hperm := process_community_members_perm cfg G counter members hwf hmo hnd hsubset
  rw [hnil] at hperm
  simp only [List.map_nil, List.flatten_nil] at hperm
  exact hne (hperm.symm.eq_nil)

theorem community_ids_fold_nodup : ∀ (l : List (Nat × Nat)) (acc : List Nat), acc.Nodup →
    (l.foldl (fun acc p => if p.2 ∈ acc then acc else acc ++ [p.2]) acc).Nodup := by
  intro l
  induction l with
  | nil => intro acc h; exact h
  | cons p ps ih =>
    intro acc h
    by_cases hmem : p.2 ∈ acc
    · simpa [hmem] using ih acc h
    · have : (acc ++ [p.2]).Nodup := by
        rw [List.nodup_append]
        exact ⟨h, List.nodup_singleton _, by simpa using hmem⟩
      simpa [hmem] using ih _ this

theorem community_ids_nodup (partition : List (Nat × Nat)) :
    (community_ids partition).Nodup :=
  community_ids_fold_nodup partition [] List.nodup_nil

theorem community_ids_fold_mem : ∀ (l : List (Nat × Nat)) (acc : List Nat) (c : Nat),
    c ∈ l.foldl (fun acc p => if p.2 ∈ acc then acc else acc ++ [p.2]) acc ↔
    c ∈ acc ∨ ∃ p ∈ l, p.2 = c := by
  intro l
  induction l with
  | nil => intro acc c; simp
  | cons p ps ih =>
    intro acc c
    by_cases hmem : p.2 ∈ acc
    · rw [List.foldl_cons, if_pos hmem, ih]
      constructor
      · rintro (h | h)
        · exact Or.inl h
        · exact Or.inr (by rcases h with ⟨q, hq, hqc⟩; exact ⟨q, List.mem_cons_of_mem p hq, hqc⟩)
      · rintro (h | ⟨q, hq, hqc⟩)
        · exact Or.inl h
        · rcases List.mem_cons.mp hq with hq | hq
          · subst hq; exact Or.inl (hqc ▸ hmem)
          · exact Or.inr ⟨q, hq, hqc⟩
    · rw [List.foldl_cons, if_neg hmem, ih]
      constructor
      · rintro (h | h)
        · rcases List.mem_append.mp h with h | h
          · exact Or.inl h
          · refine Or.inr ⟨p, List.mem_cons_self p ps, ?_⟩
            simpa using (List.mem_singleton.mp h).symm
        · exact Or.inr (by rcases h with ⟨q, hq, hqc⟩; exact ⟨q, List.mem_cons_of_mem p hq, hqc⟩)
      · rintro (h | ⟨q, hq, hqc⟩)
        · exact Or.inl (List.mem_append_left _ h)
        · rcases List.mem_cons.mp hq with hq | hq
          · subst hq
            exact Or.inl (List.mem_append_right _ (by simpa using hqc.symm))
          · exact Or.inr ⟨q, hq, hqc⟩

theorem mem_community_ids (partition : List (Nat × Nat)) (c : Nat) :
    c ∈ community_ids partition ↔ ∃ p ∈ partition, p.2 = c := by
  unfold community_ids
  rw [community_ids_fold_mem]
  simp

theorem community_members_sublist (partition : List (Nat × Nat)) (cid : Nat) :
    List.Sublist (community_members partition cid) (partition.map Prod.fst) := by
  unfold community_members
  induction partition with
  | nil => simp
  | cons p ps ih =>
    rw [List.map_cons]
    by_cases hc : p.2 = cid
    · have heq : List.filterMap (fun q : Nat × Nat => if q.2 = cid then some q.1 else none)
          (p :: ps) =
          p.1 :: List.filterMap (fun q : Nat × Nat => if q.2 = cid then some q.1 else none) ps :=
        List.filterMap_cons_some (by rw [if_pos hc])
      rw [heq]
      exact ih.cons₂ p.1
    · have heq : List.filterMap (fun q : Nat × Nat => if q.2 = cid then some q.1 else none)
          (p :: ps) =
          List.filterMap (fun q : Nat × Nat => if q.2 = cid then some q.1 else none) ps :=
        List.filterMap_cons_none (by rw [if_neg hc])
      rw [heq]
      exact ih.cons p.1

theorem mem_community_members (partition : List (Nat × Nat)) (cid x : Nat) :
    x ∈ community_members partition cid ↔ ∃ p ∈ partition, p.2 = cid ∧ p.1 = x := by
  unfold community_members
  rw [List.mem_filterMap]
  constructor
  · rintro ⟨p, hp, hpf⟩
    split_ifs at hpf with hc
    · injection hpf with he
      exact ⟨p, hp, hc, he⟩
  · rintro ⟨p, hp, hc, he⟩
    exact ⟨p, hp, by rw [if_pos hc, he]⟩

theorem community_members_ne_nil (partition : List (Nat × Nat)) (cid : Nat)
    (h : cid ∈ community_ids partition) : community_members partition cid ≠ [] := by
  rcases (mem_community_ids partition cid).mp h with ⟨p, hp, hpc⟩
  intro hnil
  have : p.1 ∈ community_members partition cid :=
    (mem_community_members partition cid p.1).mpr ⟨p, hp, hpc, rfl⟩
  rw [hnil] at this
  simp at this

theorem community_members_filter_ne (partition : List (Nat × Nat)) (c c2 : Nat)
    (hne : c2 ≠ c) :
    community_members partition c2 =
    community_members (partition.filter fun p => decide (p.2 ≠ c)) c2 := by
  unfold community_members
  induction partition with
  | nil => rfl
  | cons p ps ih =>
    rw [List.filterMap_cons]
    by_cases hpc : p.2 = c
    · have h1 : (if p.2 = c2 then some p.1 else none) = none := by
        rw [if_neg (by rw [hpc]; exact fun hcc => hne hcc.symm)]
      rw [h1]
      have h2 : (ps.filter fun p => decide (p.2 ≠ c)) =
          ((p :: ps).filter fun p => decide (p.2 ≠ c)) := by
        rw [List.filter_cons]
        rw [if_neg (by simp [hpc])]
      rw [← h2]
      exact ih
    · have h2 : ((p :: ps).filter fun p => decide (p.2 ≠ c)) =
          p :: (ps.filter fun p => decide (p.2 ≠ c)) := by
        rw [List.filter_cons, if_pos (by simpa using hpc)]
      rw [h2, List.filterMap_cons]
      split
      · exact ih
      · rw [ih]

theorem community_members_eq_filter (partition : List (Nat × Nat)) (c : Nat) :
    community_members partition c =
    (partition.filter fun p => decide (p.2 = c)).map Prod.fst := by
  unfold community_members
  induction partition with
  | nil => rfl
  | cons p ps ih =>
    rw [List.filterMap_cons, List.filter_cons]
    by_cases hpc : p.2 = c
    · rw [if_pos hpc, if_pos (by simpa using hpc), List.map_cons, ih]
    · rw [if_neg hpc, if_neg (by simpa using hpc), ih]

theorem keyed_flatten_perm : ∀ (cs : List Nat) (l : List (Nat × Nat)),
    cs.Nodup → (∀ p ∈ l, p.2 ∈ cs) →
    ((cs.map fun c => community_members l c).flatten).Perm (l.map Prod.fst) := by
  intro cs
  induction cs with
  | nil =>
    intro l _ hcov
    cases l with
    | nil => simp
    | cons p ps => exact absurd (hcov p (List.mem_cons_self p ps)) (by simp)
  | cons c cs ih =>
    intro l hnd hcov
    rw [List.map_cons, List.flatten_cons]
    have hnotin : c ∉ cs := (List.nodup_cons.mp hnd).1
    have hmap_eq : (cs.map fun c2 => community_members l c2) =
        (cs.map fun c2 => community_members (l.filter fun p => decide (p.2 ≠ c)) c2) := by
      apply List.map_congr_left
      intro c2 hc2
      exact community_members_filter_ne l c c2 (fun he => hnotin (he ▸ hc2))
    rw [hmap_eq]
    have hcov2 : ∀ p ∈ l.filter (fun p => decide (p.2 ≠ c)), p.2 ∈ cs := by
      intro p hp
      have hmem := List.mem_of_mem_filter hp
      have hne := List.of_mem_filter hp
      rw [decide_eq_true_eq] at hne
      rcases List.mem_cons.mp (hcov p hmem) with h | h
      · exact absurd h hne
      · exact h
    have hih := ih (l.filter fun p => decide (p.2 ≠ c)) (List.nodup_cons.mp hnd).2 hcov2
    have hfilters :
        ((l.filter fun p => decide (p.2 = c)).map Prod.fst ++
          (l.filter fun p => decide (p.2 ≠ c)).map Prod.fst).Perm (l.map Prod.fst) := by
      rw [← List.map_append]
      refine List.Perm.map Prod.fst ?_
      have hneg : (fun p : Nat × Nat => !decide (p.2 = c)) =
          (fun p : Nat × Nat => decide (p.2 ≠ c)) := by
        funext p
        simp [decide_not]
      have := List.filter_append_perm (fun p : Nat × Nat => decide (p.2 = c)) l
      rwa [hneg] at this
    rw [community_members_eq_filter l c]
    have hstep : ((l.filter fun p => decide (p.2 = c)).map Prod.fst ++
        ((cs.map fun c2 =>
          community_members (l.filter fun p => decide (p.2 ≠ c)) c2).flatten)).Perm
        ((l.filter fun p => decide (p.2 = c)).map Prod.fst ++
          (l.filter fun p => decide (p.2 ≠ c)).map Prod.fst) := by
      refine List.Perm.append_left _ ?_
      have : ((l.filter fun p => decide (p.2 ≠ c)).map Prod.fst) =
          ((l.filter fun p => decide (p.2 ≠ c)).map Prod.fst) := rfl
      exact hih
    exact hstep.trans hfilters

theorem groupby_flatten_perm (partition : List (Nat × Nat)) :
    (((group_by_community partition).map fun pr => pr.2).flatten).Perm
      (partition.map Prod.fst) := by
  unfold group_by_community
  rw [List.map_map]
  have : ((fun pr : Nat × List Nat => pr.2) ∘ fun cid =>
      (cid, community_members partition cid)) =
      (fun cid => community_members partition cid) := rfl
  rw [this]
  refine keyed_flatten_perm (community_ids partition) partition
    (community_ids_nodup partition) ?_
  intro p hp
  exact (mem_community_ids partition p.2).mpr ⟨p, hp, rfl⟩

theorem format_communities_members_perm (cfg : Config) (G : Graph) (hwf : G.WF)
    (hmo : 1 ≤ cfg.MIN_ORPHAN_GROUP_SIZE) :
    ∀ (prs : List (Nat × List Nat)) (counter : Nat),
      (∀ pr ∈ prs, pr.2.Nodup ∧ ∀ x ∈ pr.2, x ∈ G.nodes) →
      (((format_communities cfg G counter prs).map
          fun c => (c.sub_groups.map SubGroup.member_cde_ids).flatten).flatten).Perm
        ((prs.map fun pr => pr.2).flatten) := by
  intro prs
  induction prs with
  | nil => intro counter _; simp [format_communities]
  | cons pr rest ih =>
    intro counter hc
    obtain ⟨cid, members⟩ := pr
    have hhead := hc (cid, members) (List.mem_cons_self _ _)
    have htail : ∀ q ∈ rest, q.2.Nodup ∧ ∀ x ∈ q.2, x ∈ G.nodes :=
      fun q hq => hc q (List.mem_cons_of_mem _ hq)
    unfold format_communities
    by_cases hm : members = []
    · rw [if_pos hm]
      subst hm
      simpa using ih counter htail
    · rw [if_neg hm]
      have hne := process_community_ne_nil cfg G counter members hwf hmo
        hhead.1 hhead.2 hm
      rw [if_neg hne]
      simp only [List.map_cons, List.flatten_cons]
      refine List.Perm.append ?_ (ih _ htail)
      exact process_community_members_perm cfg G counter members hwf hmo hhead.1 hhead.2

theorem format_communities_structure (cfg : Config) (G : Graph) :
    ∀ (prs : List (Nat × List Nat)) (counter : Nat) (c : Community),
      c ∈ format_communities cfg G counter prs →
      ∃ k members, members ≠ [] ∧ (∃ cid, (cid, members) ∈ prs) ∧
        c.member_cde_ids = members ∧ c.total_cde_count = members.length ∧
        c.sub_groups = process_community cfg G k members := by
  intro prs
  induction prs with
  | nil => intro counter c hc; simp [format_communities] at hc
  | cons pr rest ih =>
    intro counter c hc
    obtain ⟨cid, members⟩ := pr
    unfold format_communities at hc
    by_cases hm : members = []
    · rw [if_pos hm] at hc
      rcases ih _ c hc with ⟨k, ms, hne, ⟨cid2, hmem⟩, h1, h2, h3⟩
      exact ⟨k, ms, hne, ⟨cid2, List.mem_cons_of_mem _ hmem⟩, h1, h2, h3⟩
    · rw [if_neg hm] at hc
      by_cases hsgs : process_community cfg G counter members = []
      · rw [if_pos hsgs] at hc
        rcases ih _ c hc with ⟨k, ms, hne, ⟨cid2, hmem⟩, h1, h2, h3⟩
        exact ⟨k, ms, hne, ⟨cid2, List.mem_cons_of_mem _ hmem⟩, h1, h2, h3⟩
      · rw [if_neg hsgs] at hc
        rcases List.mem_cons.mp hc with hc | hc
        · subst hc
          exact ⟨counter, members, hm, ⟨cid, List.mem_cons_self _ _⟩, rfl, rfl, rfl⟩
        · rcases ih _ c hc with ⟨k, ms, hne, ⟨cid2, hmem⟩, h1, h2, h3⟩
          exact ⟨k, ms, hne, ⟨cid2, List.mem_cons_of_mem _ hmem⟩, h1, h2, h3⟩

theorem dot_comm : ∀ (a b : List ℚ), dot a b = dot b a := by
  intro a
  induction a with
  | nil => intro b; cases b <;> rfl
  | cons x xs ih =>
    intro b
    cases b with
    | nil => rfl
    | cons y ys =>
      show (x * y :: List.zipWith (fun u v => u * v) xs ys).sum =
        (y * x :: List.zipWith (fun u v => u * v) ys xs).sum
      rw [List.sum_cons, List.sum_cons, mul_comm x y]
      have : dot xs ys = dot ys xs := ih ys
      unfold dot at this
      rw [this]

theorem jaccard_similarity_comm (v w : PyVal) :
    jaccard_similarity v w = jaccard_similarity w v := by
  cases v <;> cases w <;> try rfl
  rename_i a b
  show jaccard_similarity (PyVal.str a) (PyVal.str b) =
    jaccard_similarity (PyVal.str b) (PyVal.str a)
  unfold jaccard_similarity
  simp only
  rw [Finset.union_comm (tokens a) (tokens b), Finset.inter_comm (tokens a) (tokens b)]

theorem pyEq_comm (v w : PyVal) : pyEq v w = pyEq w v := by
  cases v <;> cases w <;> try rfl
  rename_i a b
  show decide (a = b) = decide (b = a)
  simp [eq_comm]

theorem structural_score_comm (v w : PyVal) :
    structural_score v w = structural_score w v := by
  unfold structural_score
  rw [pyEq_comm]

theorem combined_weight_comm (a b : Item) : combined_weight a b = combined_weight b a := by
  unfold combined_weight
  rw [dot_comm, jaccard_similarity_comm, structural_score_comm]

theorem lookupItem_some (items : List Item) (id : Nat) (nb : Item)
    (h : lookupItem items id = some nb) : nb ∈ items ∧ nb.ID = id := by
  unfold lookupItem at h
  refine ⟨List.mem_of_find?_eq_some h, ?_⟩
  have := List.find?_some h
  simpa using this

theorem build_similarity_graph_edges (K : Nat) (items : List Item) :
    ∀ e ∈ (build_similarity_graph K items).edges,
      ∃ a b, a ∈ items ∧ b ∈ items ∧ e.1 = a.ID ∧ e.2.1 = b.ID ∧
        e.2.2 = combined_weight a b := by
  have inner : ∀ (it : Item), it ∈ items → ∀ (ps : List (Nat × ℚ)) (G2 : Graph),
      (∀ e ∈ G2.edges, ∃ a b, a ∈ items ∧ b ∈ items ∧ e.1 = a.ID ∧ e.2.1 = b.ID ∧
        e.2.2 = combined_weight a b) →
      (∀ e ∈ (ps.foldl (fun G3 p =>
          if p.1 = it.ID ∨ G3.HasEdge it.ID p.1 then G3
          else match lookupItem items p.1 with
            | none => G3
            | some nb => G3.addEdge it.ID p.1 (combined_weight it nb)) G2).edges,
        ∃ a b, a ∈ items ∧ b ∈ items ∧ e.1 = a.ID ∧ e.2.1 = b.ID ∧
          e.2.2 = combined_weight a b) := by
    intro it hit ps
    induction ps with
    | nil => intro G2 hG2; exact hG2
    | cons p ps ih =>
      intro G2 hG2
      rw [List.foldl_cons]
      refine ih _ ?_
      by_cases hskip : p.1 = it.ID ∨ G2.HasEdge it.ID p.1
      · rw [if_pos hskip]; exact hG2
      · rw [if_neg hskip]
        cases hlook : lookupItem items p.1 with
        | none => exact hG2
        | some nb =>
          intro e he
          unfold Graph.addEdge at he
          rcases List.mem_append.mp he with he | he
          · exact hG2 e he
          · have heq : e = (it.ID, p.1, combined_weight it nb) := List.mem_singleton.mp he
            subst heq
            rcases lookupItem_some items p.1 nb hlook with ⟨hnb, hnbid⟩
            exact ⟨it, nb, hit, hnb, rfl, hnbid.symm, rfl⟩
  have outer : ∀ (l : List Item), (∀ x ∈ l, x ∈ items) → ∀ (G0 : Graph),
      (∀ e ∈ G0.edges, ∃ a b, a ∈ items ∧ b ∈ items ∧ e.1 = a.ID ∧ e.2.1 = b.ID ∧
        e.2.2 = combined_weight a b) →
      (∀ e ∈ (l.foldl (fun G it =>
          (search_top_k items K it.embedding).foldl (fun G2 p =>
            if p.1 = it.ID ∨ G2.HasEdge it.ID p.1 then G2
            else match lookupItem items p.1 with
              | none => G2
              | some nb => G2.addEdge it.ID p.1 (combined_weight it nb)) G) G0).edges,
        ∃ a b, a ∈ items ∧ b ∈ items ∧ e.1 = a.ID ∧ e.2.1 = b.ID ∧
          e.2.2 = combined_weight a b) := by
    intro l
    induction l with
    | nil => intro _ G0 hG0; exact hG0
    | cons it l ih =>
      intro hsub G0 hG0
      rw [List.foldl_cons]
      refine ih (fun x hx => hsub x (List.mem_cons_of_mem it hx)) _ ?_
      exact inner it (hsub it (List.mem_cons_self it l)) _ G0 hG0
  intro e he
  exact outer items (fun x hx => hx) _ (by intro e2 he2; simp at he2) e he

theorem splitOnChar_ne_nil (c : Char) (l : List Char) : splitOnChar c l ≠ [] := by
  cases l with
  | nil => simp [splitOnChar]
  | cons x xs =>
    unfold splitOnChar
    cases splitOnChar c xs with
    | nil => simp
    | cons t ts =>
      split
      · simp
      · split <;> simp

theorem tokens_card_pos (s : List Char) : 0 < (tokens s).card := by
  unfold tokens
  rw [Finset.card_pos]
  rcases List.exists_mem_of_ne_nil _ (splitOnChar_ne_nil '_' (s.map Char.toLower)) with ⟨t, ht⟩
  exact ⟨t, List.mem_toFinset.mpr ht⟩

theorem orphan_subgroups_countP (k : Nat) : ∀ (c : Nat) (bs : List (List Nat)),
    (orphan_subgroups c bs).countP
      (fun sg => decide (sg.group_type = GroupType.orphan ∧ sg.member_cde_ids.length < k)) =
    bs.countP (fun b => decide (b.length < k)) := by
  intro c bs
  induction bs generalizing c with
  | nil => rfl
  | cons b bs ih =>
    unfold orphan_subgroups
    rw [List.countP_cons, List.countP_cons, ih (c + 1)]
    simp

theorem hub_subgroups_countP_zero (k : Nat) : ∀ (c : Nat) (l : List (Nat × List Nat)),
    (hub_subgroups c l).countP
      (fun sg => decide (sg.group_type = GroupType.orphan ∧ sg.member_cde_ids.length < k)) = 0 := by
  intro c l
  induction l generalizing c with
  | nil => rfl
  | cons pr rest ih =>
    obtain ⟨h, grp⟩ := pr
    unfold hub_subgroups
    rw [List.countP_cons, ih (c + 1)]
    simp

theorem hub_subgroups_filter_orphan : ∀ (c : Nat) (l : List (Nat × List Nat)),
    (hub_subgroups c l).filter (fun sg => decide (sg.group_type = GroupType.orphan)) = [] := by
  intro c l
  induction l generalizing c with
  | nil => rfl
  | cons pr rest ih =>
    obtain ⟨h, grp⟩ := pr
    unfold hub_subgroups
    rw [List.filter_cons]
    rw [if_neg (by simp)]
    exact ih (c + 1)

theorem orphan_subgroups_filter_orphan : ∀ (c : Nat) (bs : List (List Nat)),
    (orphan_subgroups c bs).filter (fun sg => decide (sg.group_type = GroupType.orphan)) =
    orphan_subgroups c bs := by
  intro c bs
  induction bs generalizing c with
  | nil => rfl
  | cons b bs ih =>
    unfold orphan_subgroups
    rw [List.filter_cons, if_pos (by simp)]
    rw [ih (c + 1)]

theorem orphan_subgroups_dropLast : ∀ (c : Nat) (bs : List (List Nat)) (sg : SubGroup),
    sg ∈ (orphan_subgroups c bs).dropLast → ∃ b ∈ bs.dropLast, sg.member_cde_ids = b := by
  intro c bs
  induction bs generalizing c with
  | nil => intro sg hsg; simp [orphan_subgroups] at hsg
  | cons b bs ih =>
    intro sg hsg
    cases bs with
    | nil => simp [orphan_subgroups] at hsg
    | cons b2 bs2 =>
      unfold orphan_subgroups at hsg
      have hne : orphan_subgroups (c + 1) (b2 :: bs2) ≠ [] := by
        unfold orphan_subgroups
        simp
      rw [List.dropLast_cons_of_ne_nil hne] at hsg
      rw [List.dropLast_cons_of_ne_nil (by simp : (b2 :: bs2 : List (List Nat)) ≠ [])]
      rcases List.mem_cons.mp hsg with hsg | hsg
      · subst hsg
        exact ⟨b, List.mem_cons_self _ _, rfl⟩
      · rcases ih (c + 1) sg hsg with ⟨b3, hb3, heq⟩
        exact ⟨b3, List.mem_cons_of_mem _ hb3, heq⟩

/-- The peeling loop is fuel-insensitive once the fuel exceeds the
working subgraph's node count: every accepted group removes at least
its hub, so `peel` (which passes `sub.nodes.length + 1`) computes the
full, untruncated while-loop of lines 154-185. -/
theorem peel_fuel_congr (cfg : Config) : ∀ (f1 f2 : Nat) (sub : Graph) (ntp : List Nat),
    sub.nodes.length < f1 → sub.nodes.length < f2 →
    peel_fuel cfg f1 sub ntp = peel_fuel cfg f2 sub ntp := by
  intro f1
  induction f1 with
  | zero => intro f2 sub ntp h1 _; omega
  | succ n ih =>
    intro f2 sub ntp h1 h2
    cases f2 with
    | zero => omega
    | succ m =>
      unfold peel_fuel
      split_ifs with hmin hsn
      · rfl
      · cases hfind : find_hub cfg sub with
        | none => rfl
        | some q =>
          obtain ⟨h, grp⟩ := q
          simp only [hfind]
          have hdec : (sub.removeNodes grp).nodes.length < sub.nodes.length := by
            rcases find_hub_some cfg sub h grp hfind with ⟨hmem, hgrp, _⟩
            rcases candidate_group_cons cfg sub h with ⟨t, hct⟩
            refine removeNodes_length_lt sub grp h hmem ?_
            rw [hgrp, hct]
            exact List.mem_cons_self _ _
          rw [ih m (sub.removeNodes grp) (ntp.filter fun x => decide (x ∉ grp))
            (by omega) (by omega)]
      · rfl

/-- C1: Partition completeness — for every well-formed input graph and
every Louvain assignment covering exactly the graph's nodes (which is
what `community_louvain.best_partition` returns), the concatenation of
all `member_cde_ids` over all SubGroups of all Communities produced by
`detect_and_format_communities_hub_spoke` is a permutation of the
graph's node list: every item ID appears in exactly one SubGroup, none
is omitted and none duplicated.  The size bounds are required to be
positive, which the script's constants (200/100/10) satisfy. -/
theorem partition_completeness (cfg : Config) (G : Graph) (partition : List (Nat × Nat))
    (hwf : G.WF) (hmo : 1 ≤ cfg.MIN_ORPHAN_GROUP_SIZE) (_hms : 1 ≤ cfg.MAX_SUB_GROUP_SIZE)
    (hcov : (partition.map Prod.fst).Perm G.nodes) :
    (all_subgroup_members
      (detect_and_format_communities_hub_spoke cfg partition G)).Perm G.nodes := by
  unfold all_subgroup_members detect_and_format_communities_hub_spoke
  have hkeys_nodup : (partition.map Prod.fst).Nodup := hcov.nodup_iff.mpr hwf.1
  have hc : ∀ pr ∈ group_by_community partition, pr.2.Nodup ∧ ∀ x ∈ pr.2, x ∈ G.nodes := by
    intro pr hpr
    unfold group_by_community at hpr
    rcases List.mem_map.mp hpr with ⟨cid, _, heq⟩
    subst heq
    constructor
    · exact (community_members_sublist partition cid).nodup hkeys_nodup
    · intro x hx
      exact hcov.mem_iff.mp ((community_members_sublist partition cid).subset hx)
  have h1 := format_communities_members_perm cfg G hwf hmo (group_by_community partition) 0 hc
  have h2 := groupby_flatten_perm partition
  exact (h1.trans h2).trans hcov

/-- C1 witness: the theorem instantiated on the concrete five-node run
(`cfg6`/`G6`/`parti6`), whose output is two hub-and-spoke groups
covering all five nodes. -/
theorem partition_completeness_witness :
    (all_subgroup_members
      (detect_and_format_communities_hub_spoke cfg6 parti6 G6)).Perm G6.nodes :=
  partition_completeness cfg6 G6 parti6 (by decide) (by decide) (by decide) (by decide)

/-- C2: Size bounds — in every community of the output, every
`hub_and_spoke` SubGroup has between `MIN_HUB_SPOKE_GROUP_SIZE` and
`MAX_SUB_GROUP_SIZE` members; at most one `orphan` SubGroup per
community is smaller than `MIN_ORPHAN_GROUP_SIZE`, and every orphan
SubGroup other than the last one has exactly `MIN_ORPHAN_GROUP_SIZE`
members (the final leftover batch is the only one that may be
smaller). -/
theorem subgroup_size_bounds (cfg : Config) (G : Graph) (partition : List (Nat × Nat))
    (hmo : 1 ≤ cfg.MIN_ORPHAN_GROUP_SIZE) (hms : 1 ≤ cfg.MAX_SUB_GROUP_SIZE) :
    ∀ c ∈ detect_and_format_communities_hub_spoke cfg partition G,
      (∀ sg ∈ c.sub_groups, sg.group_type = GroupType.hub_and_spoke →
        cfg.MIN_HUB_SPOKE_GROUP_SIZE ≤ sg.member_cde_ids.length ∧
        sg.member_cde_ids.length ≤ cfg.MAX_SUB_GROUP_SIZE) ∧
      c.sub_groups.countP (fun sg => decide (sg.group_type = GroupType.orphan ∧
        sg.member_cde_ids.length < cfg.MIN_ORPHAN_GROUP_SIZE)) ≤ 1 ∧
      ∀ sg ∈ (c.sub_groups.filter fun sg =>
          decide (sg.group_type = GroupType.orphan)).dropLast,
        sg.member_cde_ids.length = cfg.MIN_ORPHAN_GROUP_SIZE := by
  intro c hc
  rcases format_communities_structure cfg G _ _ c hc with ⟨k, members, _, _, _, _, hsgs⟩
  rw [hsgs]
  unfold process_community
  refine ⟨?_, ?_, ?_⟩
  · intro sg hsg htype
    rcases List.mem_append.mp hsg with hsg | hsg
    · rcases mem_hub_subgroups _ _ sg hsg with ⟨_, pr2, hpr2, _, hmem⟩
      rw [hmem]
      exact peel_hub_sizes cfg hms _ _ pr2 hpr2
    · rcases mem_orphan_subgroups _ _ sg hsg with ⟨ht, _, _⟩
      exact absurd (ht.symm.trans htype) (by decide)
  · rw [List.countP_append, hub_subgroups_countP_zero, orphan_subgroups_countP]
    simpa using chunkList_countP_lt _ hmo _
  · intro sg hsg
    rw [List.filter_append, hub_subgroups_filter_orphan,
      orphan_subgroups_filter_orphan, List.nil_append] at hsg
    rcases orphan_subgroups_dropLast _ _ sg hsg with ⟨b, hb, heq⟩
    rw [heq]
    exact chunkList_dropLast_length _ _ b hb

/-- C2 witness: the first sub-group of the concrete `cfg6`/`G6` run is
a hub-and-spoke group whose size 3 lies within `[2, 3]`. -/
theorem subgroup_size_bounds_witness :
    cfg6.MIN_HUB_SPOKE_GROUP_SIZE ≤ sg6.member_cde_ids.length ∧
    sg6.member_cde_ids.length ≤ cfg6.MAX_SUB_GROUP_SIZE :=
  (subgroup_size_bounds cfg6 G6 parti6 (by decide) (by decide) comm6
    (by decide)).1 sg6 (by decide) (by decide)

/-- C3 (supporting theorem for the code bug): the serialized community
structure is sensitive to the Louvain partition.  On the same two-node
graph, two different partitions — exactly the kind of variation
unseeded tie-breaking produces — yield different outputs.  The script
calls `community_louvain.best_partition(G, weight='weight')` (line 136)
with no `random_state`, so the partition depends on the global RNG and
no `community_detection_seed` parameter exists anywhere; therefore
whole-pipeline determinism for a "fixed configurable seed" fails on
the code. -/
theorem output_depends_on_louvain_partition :
    detect_and_format_communities_hub_spoke default_config [(1, 0), (2, 0)] Gw ≠
    detect_and_format_communities_hub_spoke default_config [(1, 0), (2, 1)] Gw := by
  decide

/-- C4 counterexample: on two empty strings the code returns 1, not 0
as the claim states — Python's `''.split('_')` is `['']`, so both token
sets are `{''}` and the Jaccard ratio is 1/1. -/
theorem jaccard_empty_strings_counterexample :
    jaccard_similarity (PyVal.str []) (PyVal.str []) = 1 ∧
    jaccard_similarity (PyVal.str []) (PyVal.str []) ≠ 0 := by
  decide

/-- C4 (amended): for string inputs the result is always
`|∩| / |∪|` of the lowercased underscore-token sets — the token sets
are never empty (splitting any string yields at least one, possibly
empty, token), so the union is nonempty and the zero-division guard
never fires; the result is 0 whenever either input is not a string;
and on two empty strings the result is 1, not 0. -/
theorem jaccard_similarity_spec :
    (∀ s t : List Char,
      0 < (tokens s ∪ tokens t).card ∧
      jaccard_similarity (PyVal.str s) (PyVal.str t) =
        ((tokens s ∩ tokens t).card : ℚ) / ((tokens s ∪ tokens t).card : ℚ)) ∧
    (∀ v w : PyVal, v.isStr = false ∨ w.isStr = false → jaccard_similarity v w = 0) ∧
    jaccard_similarity (PyVal.str []) (PyVal.str []) = 1 := by
  refine ⟨?_, ?_, by decide⟩
  · intro s t
    have hpos : 0 < (tokens s ∪ tokens t).card :=
      lt_of_lt_of_le (tokens_card_pos s) (Finset.card_le_card Finset.subset_union_left)
    refine ⟨hpos, ?_⟩
    show (if (tokens s ∪ tokens t).card ≠ 0 then
        ((tokens s ∩ tokens t).card : ℚ) / ((tokens s ∪ tokens t).card : ℚ) else 0) = _
    rw [if_pos (Nat.pos_iff_ne_zero.mp hpos)]
  · intro v w hvw
    cases v <;> cases w <;> try rfl
    rcases hvw with h | h <;> exact absurd h (by simp [PyVal.isStr])

/-- C4 witness: a non-string operand forces the result 0. -/
theorem jaccard_similarity_spec_witness :
    jaccard_similarity (PyVal.str ['a']) PyVal.nan = 0 :=
  jaccard_similarity_spec.2.1 (PyVal.str ['a']) PyVal.nan (Or.inr rfl)

/-- C5 counterexample: two equal-but-empty `value_format` tags make the
code's structural score 1.0, not 0.0 as the claim requires for
missing/empty tags — line 122 is a plain `==` with no missing-value
check. -/
theorem structural_score_empty_equal_counterexample :
    structural_score (PyVal.str []) (PyVal.str []) = 1 ∧
    structural_score (PyVal.str []) (PyVal.str []) ≠ 0 := by
  decide

/-- C5 (amended): the structural score is 1.0 exactly when the two tags
compare equal under Python `==` — equal strings (including two empty
strings) or two `None`s; it is 0.0 in every other case, including two
NaNs (`nan == nan` is false in Python). -/
theorem structural_score_characterization :
    (∀ v w : PyVal, structural_score v w = 1 ↔
      ((∃ s, v = PyVal.str s ∧ w = PyVal.str s) ∨
        (v = PyVal.pyNone ∧ w = PyVal.pyNone))) ∧
    (∀ v w : PyVal, structural_score v w = 1 ∨ structural_score v w = 0) ∧
    structural_score PyVal.nan PyVal.nan = 0 := by
  refine ⟨?_, ?_, by decide⟩
  · intro v w
    cases v <;> cases w <;> simp [structural_score, pyEq]
    rename_i a b
    by_cases hab : a = b
    · subst hab
      simp
    · simp [hab]
      exact fun h => hab h.symm
  · intro v w
    unfold structural_score
    split_ifs
    · exact Or.inl rfl
    · exact Or.inr rfl

/-- C7 (supporting theorem for the code bug): with a corrupt graph
checkpoint present, the pipeline's graph-acquisition step (lines
340-355 of `main`) raises the deserialization error instead of
recomputing; only an absent checkpoint leads to a rebuild.  The claim
that a corrupt checkpoint is treated as absent fails on the code. -/
theorem corrupt_checkpoint_error_propagates :
    load_or_build_graph GraphCheckpoint.corrupt Gw = Except.error "UnpicklingError" ∧
    load_or_build_graph GraphCheckpoint.absent Gw = Except.ok Gw :=
  ⟨rfl, rfl⟩

/-- C8 (supporting theorem for the code bug): both checkpoint writes
(`pickle.dump` on line 355, `np.save` on line 351) open and write the
final checkpoint path directly; neither trace satisfies the spec's
write-to-temp-then-rename discipline, so a crash mid-write leaves a
partial file at the checkpoint path. -/
theorem checkpoint_write_not_atomic :
    spec_atomic_write GRAPH_CHECKPOINT_FILENAME
      (save_graph_checkpoint_ops GRAPH_CHECKPOINT_FILENAME) = false ∧
    spec_atomic_write EMBEDDINGS_CHECKPOINT_FILENAME
      (save_embeddings_ops EMBEDDINGS_CHECKPOINT_FILENAME) = false ∧
    FsOp.writeData GRAPH_CHECKPOINT_FILENAME ∈
      save_graph_checkpoint_ops GRAPH_CHECKPOINT_FILENAME := by
  decide

/-- C6 counterexample: the code sorts candidate hubs by
`nx.degree_centrality`, which is the **unweighted** neighbor count
divided by `n - 1`, not the weighted degree the claim describes.  On
`G6` (node 1 has two weight-1 edges, node 2 one weight-30 edge) the
code accepts hub 1 with group `[1, 3, 4]`, while the claim's
weighted-degree ordering accepts hub 2 with group `[2, 5]`. -/
theorem hub_order_counterexample :
    find_hub cfg6 G6 = some (1, [1, 3, 4]) ∧
    spec_find_hub cfg6 G6 = some (2, [2, 5]) ∧
    find_hub cfg6 G6 ≠ spec_find_hub cfg6 G6 := by
  decide

/-- C6 (amended): in each hub-selection round the candidates are the
working subgraph's nodes in stably descending order of **unweighted**
degree centrality (`nx.degree_centrality`, neighbor count over n−1);
the accepted hub is the first candidate whose group — the hub plus at
most `MAX_SUB_GROUP_SIZE − 1` heaviest neighbors — reaches
`MIN_HUB_SPOKE_GROUP_SIZE`, every earlier candidate falling short; if
no candidate qualifies the round reports no hub. -/
theorem hub_selection_amended (cfg : Config) (sub : Graph) :
    (sortedHubs sub).Perm sub.nodes ∧
    (sortedHubs sub).Pairwise
      (fun a b => centrality_value sub b ≤ centrality_value sub a) ∧
    (∀ h grp, find_hub cfg sub = some (h, grp) →
      grp = candidate_group cfg sub h ∧
      cfg.MIN_HUB_SPOKE_GROUP_SIZE ≤ grp.length ∧
      ∃ pre post, sortedHubs sub = pre ++ h :: post ∧
        ∀ x ∈ pre, (candidate_group cfg sub x).length < cfg.MIN_HUB_SPOKE_GROUP_SIZE) ∧
    (find_hub cfg sub = none →
      ∀ x ∈ sortedHubs sub,
        (candidate_group cfg sub x).length < cfg.MIN_HUB_SPOKE_GROUP_SIZE) := by
  refine ⟨sortDescBy_perm _ _, sortDescBy_pairwise _ _, ?_, ?_⟩
  · intro h grp hfind
    exact find_hub_aux_some cfg sub _ h grp hfind
  · exact find_hub_aux_none cfg sub _

/-- C6 witness: the amended selection rule applied to the accepted hub
of the concrete `cfg6`/`G6` round. -/
theorem hub_selection_amended_witness :
    [1, 3, 4] = candidate_group cfg6 G6 1 ∧
    cfg6.MIN_HUB_SPOKE_GROUP_SIZE ≤ ([1, 3, 4] : List Nat).length := by
  have h := (hub_selection_amended cfg6 G6).2.2.1 1 [1, 3, 4] (by decide)
  exact ⟨h.1, h.2.1⟩

/-- C9: every edge the graph builder inserts carries the weight
`semantic * (1 + LEXICAL_BOOST_FACTOR*lexical + STRUCTURAL_BOOST_FACTOR*structural)`
computed by `combined_weight` from the two endpoint items' features,
and that function is symmetric in its two arguments — so the edge
weight depends only on the unordered pair, never on which endpoint's
top-K query discovered the edge first. -/
theorem edge_weight_symmetric (K : Nat) (items : List Item) :
    ∀ e ∈ (build_similarity_graph K items).edges,
      ∃ a b, a ∈ items ∧ b ∈ items ∧ e.1 = a.ID ∧ e.2.1 = b.ID ∧
        e.2.2 = combined_weight a b ∧ combined_weight a b = combined_weight b a := by
  intro e he
  rcases build_similarity_graph_edges K items e he with ⟨a, b, ha, hb, h1, h2, h3⟩
  exact ⟨a, b, ha, hb, h1, h2, h3, combined_weight_comm a b⟩

/-- C9 witness: the single edge of the two-item build carries the fully
boosted weight `1 * (1 + 0.2*1 + 0.15*1) = 27/20`, symmetrically. -/
theorem edge_weight_symmetric_witness :
    ∃ a b, a ∈ items9 ∧ b ∈ items9 ∧ (1 : Nat) = a.ID ∧ (2 : Nat) = b.ID ∧
      (27 / 20 : ℚ) = combined_weight a b ∧ combined_weight a b = combined_weight b a :=
  edge_weight_symmetric 2 items9 ((1 : Nat), (2 : Nat), (27 / 20 : ℚ)) (by decide)

/-- C10: in every output of `detect_and_format_communities_hub_spoke`
on a well-formed (loop-free, parallel-edge-free) graph, each
`hub_and_spoke` SubGroup's `hub_cde_id` is the first element of its
`member_cde_ids`, and the member list has no duplicates — the spokes
are distinct neighbors of the hub, none equal to the hub itself. -/
theorem hub_in_members_nodup (cfg : Config) (G : Graph) (partition : List (Nat × Nat))
    (hwf : G.WF) :
    ∀ c ∈ detect_and_format_communities_hub_spoke cfg partition G,
      ∀ sg ∈ c.sub_groups, sg.group_type = GroupType.hub_and_spoke →
        (∃ h t, sg.hub_cde_id = some h ∧ sg.member_cde_ids = h :: t) ∧
        sg.member_cde_ids.Nodup := by
  intro c hc sg hsg htype
  rcases format_communities_structure cfg G _ _ c hc with ⟨k, members, _, _, _, _, hsgs⟩
  rw [hsgs] at hsg
  unfold process_community at hsg
  rcases List.mem_append.mp hsg with hsg | hsg
  · rcases mem_hub_subgroups _ _ sg hsg with ⟨_, pr, hpr, hhub, hmem⟩
    rcases peel_hub_shape cfg (G.subgraphOn members) members
      (WF_subgraphOn G members hwf) pr hpr with ⟨⟨t, hgrp⟩, hnodup⟩
    exact ⟨⟨pr.1, t, hhub, by rw [hmem, hgrp]⟩, by rw [hmem]; exact hnodup⟩
  · rcases mem_orphan_subgroups _ _ sg hsg with ⟨ht, _, _⟩
    exact absurd (ht.symm.trans htype) (by decide)

/-- C10 witness: in the concrete run the first sub-group is the
hub-and-spoke group `[1, 3, 4]` headed by its hub 1, duplicate-free. -/
theorem hub_in_members_nodup_witness :
    (∃ h t, sg6.hub_cde_id = some h ∧ sg6.member_cde_ids = h :: t) ∧
    sg6.member_cde_ids.Nodup :=
  hub_in_members_nodup cfg6 G6 parti6 (by decide) comm6 (by decide) sg6
    (by decide) (by decide)
